import Mathlib

/-!
Shallow embedding of the askPDF core: the PDF text/geometry extraction
pipeline (`backend/app/pdf_parser.py`) and the sentence-to-bounding-box
aligner (`backend/app/pdf_service.py`, duplicated inline in
`backend/app/main.py`).

Modelling conventions:
* Python strings are `List Char`; Python floats (page coordinates) are `ℚ`
  (exact arithmetic at the level the claims speak about).
* The Python whitespace class (used identically by `str.split()`,
  `str.isspace()` and `str.strip()`) is the ASCII whitespace set.
* The `-1` sentinel of `match_start` is `Option Nat`.
* Python's stable `sorted(key=k)` is `List.insertionSort` with the
  reflexive key comparison, which is the stable sort on that key.
-/

namespace AskPDF

/-- Python's whitespace class (`str.isspace` / `str.split` / `str.strip`),
restricted to the ASCII range: space, tab, newline, carriage return,
vertical tab, form feed. -/
def pyIsSpace (c : Char) : Bool :=
  c = ' ' || c = '\t' || c = '\n' || c = '\r' || c = '\x0b' || c = '\x0c'

/-- Python slice `l[a:b]` (for `0 ≤ a ≤ b`). -/
def pySlice (l : List α) (a b : Nat) : List α :=
  (l.take b).drop a

/-- `"".join(s.split())`: the sentence text with all whitespace removed
(the aligner's clean key).  Removing the whitespace-separated split and
re-joining is the same as filtering out every whitespace character. -/
def cleanKey (l : List Char) : List Char :=
  l.filter (fun c => ! pyIsSpace c)

/-- One entry of the geometry map (`char_map`): the dict built in
`_process_line` / `_process_block` / `_finalize_block`.  Real glyph
entries carry `is_space = false, is_newline = false` (the Python dicts
simply lack those keys). -/
structure CharBox where
  page : Nat
  x : ℚ
  y : ℚ
  width : ℚ
  height : ℚ
  page_height : ℚ
  page_width : ℚ
  is_space : Bool
  is_newline : Bool
  deriving DecidableEq, Repr

/-- External sentence input: `{id, text}` dicts from `split_into_sentences`. -/
structure Sentence where
  id : Nat
  text : List Char
  deriving DecidableEq, Repr

/-- A sentence augmented with its `bboxes` key. -/
structure EnrichedSentence where
  id : Nat
  text : List Char
  bboxes : List CharBox
  deriving DecidableEq, Repr

/-!
## The sentence aligner scan loop (`pdf_service.py`, lines 120-138)

The `while` loop scanning `text` from `current_idx` for the clean key:
state `(temp_idx, match_start, s_ptr)`.  Termination: the pair
`(anchor, temp_idx)` with `anchor = match_start.getD temp_idx` increases
lexicographically-downward on every iteration.
-/

/-- The scan loop of `PDFService._map_sentences_to_bboxes`
(`pdf_service.py` lines 120-138), returning the final
`(temp_idx, match_start, s_ptr)`. -/
def scanLoopSvc (text key : List Char) (tempIdx : Nat) (matchStart : Option Nat)
    (sPtr : Nat) : Nat × Option Nat × Nat :=
  if h : tempIdx < text.length ∧ sPtr < key.length then
    let c := text.get ⟨tempIdx, h.1⟩
    if pyIsSpace c then
      scanLoopSvc text key (tempIdx + 1) matchStart sPtr
    else if c = key.get ⟨sPtr, h.2⟩ then
      match matchStart with
      | none => scanLoopSvc text key (tempIdx + 1) (some tempIdx) (sPtr + 1)
      | some m => scanLoopSvc text key (tempIdx + 1) (some m) (sPtr + 1)
    else
      match matchStart with
      | some m => scanLoopSvc text key (m + 1) none 0
      | none => scanLoopSvc text key (tempIdx + 1) none sPtr
  else
    (tempIdx, matchStart, sPtr)
  termination_by (text.length + 1 - matchStart.getD tempIdx, text.length + 1 - tempIdx)
  decreasing_by
  · rcases matchStart with _ | m <;> simp [Prod.lex_def, Option.getD] <;> omega
  · simp [Prod.lex_def, Option.getD] <;> omega
  · simp [Prod.lex_def, Option.getD] <;> omega
  · simp [Prod.lex_def, Option.getD] <;> omega
  · simp [Prod.lex_def, Option.getD] <;> omega

/-- The per-sentence loop of `PDFService._map_sentences_to_bboxes`
(`pdf_service.py` lines 109-147), recursing over the sentence list and
threading `current_idx`. -/
def svcAlignLoop (text : List Char) (char_map : List CharBox) :
    List Sentence → Nat → List EnrichedSentence
  | [], _ => []
  | s :: rest, current_idx =>
    let s_text_clean := cleanKey s.text
    if s_text_clean.isEmpty then
      ⟨s.id, s.text, []⟩ :: svcAlignLoop text char_map rest current_idx
    else
      let r := scanLoopSvc text s_text_clean current_idx none 0
      match r.2.1 with
      | some match_start =>
        if r.2.2 = s_text_clean.length then
          ⟨s.id, s.text, pySlice char_map match_start r.1⟩ ::
            svcAlignLoop text char_map rest r.1
        else
          ⟨s.id, s.text, []⟩ :: svcAlignLoop text char_map rest current_idx
      | none =>
        ⟨s.id, s.text, []⟩ :: svcAlignLoop text char_map rest current_idx

/-- `PDFService._map_sentences_to_bboxes(sentences, text, char_map)`
(`pdf_service.py` lines 97-147). -/
def map_sentences_to_bboxes (sentences : List Sentence) (text : List Char)
    (char_map : List CharBox) : List EnrichedSentence :=
  svcAlignLoop text char_map sentences 0

/-- The scan loop embedded a second time, from the inline copy in
`upload_pdf` (`main.py` lines 71-95). -/
def scanLoopMain (text key : List Char) (tempIdx : Nat) (matchStart : Option Nat)
    (sPtr : Nat) : Nat × Option Nat × Nat :=
  if h : tempIdx < text.length ∧ sPtr < key.length then
    let c := text.get ⟨tempIdx, h.1⟩
    if pyIsSpace c then
      scanLoopMain text key (tempIdx + 1) matchStart sPtr
    else if c = key.get ⟨sPtr, h.2⟩ then
      match matchStart with
      | none => scanLoopMain text key (tempIdx + 1) (some tempIdx) (sPtr + 1)
      | some m => scanLoopMain text key (tempIdx + 1) (some m) (sPtr + 1)
    else
      match matchStart with
      | some m => scanLoopMain text key (m + 1) none 0
      | none => scanLoopMain text key (tempIdx + 1) none sPtr
  else
    (tempIdx, matchStart, sPtr)
  termination_by (text.length + 1 - matchStart.getD tempIdx, text.length + 1 - tempIdx)
  decreasing_by
  · rcases matchStart with _ | m <;> simp [Prod.lex_def, Option.getD] <;> omega
  · simp [Prod.lex_def, Option.getD] <;> omega
  · simp [Prod.lex_def, Option.getD] <;> omega
  · simp [Prod.lex_def, Option.getD] <;> omega
  · simp [Prod.lex_def, Option.getD] <;> omega

/-- The inline sentence-to-bbox loop of `upload_pdf`
(`main.py` lines 49-109), embedded separately from the service copy. -/
def uploadAlignLoop (text : List Char) (char_map : List CharBox) :
    List Sentence → Nat → List EnrichedSentence
  | [], _ => []
  | s :: rest, current_idx =>
    let s_text_clean := cleanKey s.text
    if s_text_clean.isEmpty then
      ⟨s.id, s.text, []⟩ :: uploadAlignLoop text char_map rest current_idx
    else
      let r := scanLoopMain text s_text_clean current_idx none 0
      match r.2.1 with
      | some match_start =>
        if r.2.2 = s_text_clean.length then
          ⟨s.id, s.text, pySlice char_map match_start r.1⟩ ::
            uploadAlignLoop text char_map rest r.1
        else
          ⟨s.id, s.text, []⟩ :: uploadAlignLoop text char_map rest current_idx
      | none =>
        ⟨s.id, s.text, []⟩ :: uploadAlignLoop text char_map rest current_idx

/-- The sentence mapping as performed inline by `upload_pdf` (`main.py`
lines 48-109). -/
def upload_map_sentences (sentences : List Sentence) (text : List Char)
    (char_map : List CharBox) : List EnrichedSentence :=
  uploadAlignLoop text char_map sentences 0

/-- The matched `[match_start, match_end)` range (if any) the aligner
computes for one clean key starting at one cursor position. -/
def matchRange (text key : List Char) (current_idx : Nat) : Option (Nat × Nat) :=
  match (scanLoopSvc text key current_idx none 0).2.1 with
  | some match_start =>
      if (scanLoopSvc text key current_idx none 0).2.2 = key.length then
        some (match_start, (scanLoopSvc text key current_idx none 0).1)
      else none
  | none => none

/-- The per-sentence match ranges of one aligner run: `some (start, end)`
for a matched sentence, `none` for an empty clean key or a failed scan.
Mirrors the branching and cursor updates of `svcAlignLoop`. -/
def alignRanges (text : List Char) : List Sentence → Nat → List (Option (Nat × Nat))
  | [], _ => []
  | s :: rest, current_idx =>
    let s_text_clean := cleanKey s.text
    if s_text_clean.isEmpty then
      none :: alignRanges text rest current_idx
    else
      match matchRange text s_text_clean current_idx with
      | some (m, e) => some (m, e) :: alignRanges text rest e
      | none => none :: alignRanges text rest current_idx

/-!
## The extraction pipeline (`pdf_parser.py`)

Input model: the PyMuPDF `rawdict` page structure — blocks with nested
lines, spans and per-glyph characters, plus detected table and image
rectangles.  A glyph's `"c"` value is a single character; the
`char_info.get("c", "")` / `if not c: continue` pattern is an `Option Char`.
-/

/-- A `fitz.Rect`: `(x0, y0, x1, y1)` with y growing downward. -/
structure Rect where
  x0 : ℚ
  y0 : ℚ
  x1 : ℚ
  y1 : ℚ
  deriving DecidableEq, Repr

/-- `fitz.Point in fitz.Rect` (inclusive containment on both axes). -/
def rectContains (r : Rect) (px py : ℚ) : Bool :=
  decide (r.x0 ≤ px ∧ px ≤ r.x1 ∧ r.y0 ≤ py ∧ py ≤ r.y1)

/-- One `char_info` dict of a span in `rawdict`. -/
structure RawChar where
  c : Option Char
  bbox : Rect
  deriving DecidableEq, Repr

/-- One span dict; `x0` is `s["bbox"][0]`, the span sort key. -/
structure RawSpan where
  x0 : ℚ
  chars : List RawChar
  deriving DecidableEq, Repr

/-- One line dict. -/
structure RawLine where
  spans : List RawSpan
  deriving DecidableEq, Repr

/-- One block dict: its `"type"`, `"bbox"` and `"lines"`. -/
structure RawBlock where
  type : Nat
  bbox : Rect
  lines : List RawLine
  deriving DecidableEq, Repr

/-- Everything `extract_text_with_coordinates` reads from one page:
metrics, detected table/image rectangles, and the `rawdict` blocks. -/
structure PageData where
  page_height : ℚ
  page_width : ℚ
  table_bboxes : List Rect
  image_bboxes : List Rect
  blocks : List RawBlock
  deriving DecidableEq, Repr

/-- `_is_block_filtered` (`pdf_parser.py` lines 29-48): header/footer
band test on the block rectangle, then centroid containment in any table
or image rectangle. -/
def _is_block_filtered (bbox : Rect) (header_height footer_y : ℚ)
    (table_bboxes image_bboxes : List Rect) : Bool :=
  if bbox.y1 < header_height ∨ bbox.y0 > footer_y then true
  else
    let cx := (bbox.x0 + bbox.x1) / 2
    let cy := (bbox.y0 + bbox.y1) / 2
    if table_bboxes.any (fun t_bbox => rectContains t_bbox cx cy) then true
    else if image_bboxes.any (fun i_bbox => rectContains i_bbox cx cy) then true
    else false

/-- The body of the glyph loop of `_process_line` (`pdf_parser.py` lines
66-82): skip an empty `"c"`, otherwise append the character and one
geometry entry with the y flipped to bottom-up coordinates. -/
def _process_char (page_num : Nat) (page_height page_width : ℚ)
    (acc : List Char × List CharBox) (char_info : RawChar) : List Char × List CharBox :=
  match char_info.c with
  | none => acc
  | some c =>
    let c_bbox := char_info.bbox
    let c_height := c_bbox.y1 - c_bbox.y0
    let c_y_bottom := page_height - c_bbox.y0 - c_height
    (acc.1 ++ [c],
     acc.2 ++ [⟨page_num + 1, c_bbox.x0, c_y_bottom, c_bbox.x1 - c_bbox.x0,
                c_height, page_height, page_width, false, false⟩])

/-- Span order in `_process_line`: `sorted(spans, key=lambda s: s["bbox"][0])`. -/
def spanLE (s1 s2 : RawSpan) : Prop := s1.x0 ≤ s2.x0

instance : DecidableRel spanLE := fun s1 s2 => inferInstanceAs (Decidable (s1.x0 ≤ s2.x0))

/-- `_process_line` (`pdf_parser.py` lines 50-83): spans sorted by their
left x, glyphs appended in source order. -/
def _process_line (line : RawLine) (page_num : Nat) (page_height page_width : ℚ) :
    List Char × List CharBox :=
  let spans := line.spans.insertionSort spanLE
  spans.foldl (fun acc span => span.chars.foldl (_process_char page_num page_height page_width) acc)
    ([], [])

/-- `line_text.endswith((" ", "\n", "\t"))`. -/
def endsWithSTN (l : List Char) : Bool :=
  match l.getLast? with
  | some c => c = ' ' || c = '\n' || c = '\t'
  | none => false

/-- The synthetic inter-line space entry (`pdf_parser.py` lines 107-116):
built from the line's last real glyph entry `last`; note `width` is
`last["width"]` and the dict carries no `is_newline` key. -/
def spaceBoxAfter (last : CharBox) : CharBox :=
  ⟨last.page, last.x + last.width, last.y, last.width, last.height,
   last.page_height, last.page_width, true, false⟩

/-- The body of the line loop of `_process_block` (`pdf_parser.py` lines
98-116): append a non-empty line, then a synthetic space (text and
geometry) when the line text does not end in space/newline/tab. -/
def _process_block_step (page_num : Nat) (page_height page_width : ℚ)
    (acc : List Char × List CharBox) (line : RawLine) : List Char × List CharBox :=
  let lr := _process_line line page_num page_height page_width
  if lr.1.isEmpty then acc
  else
    let block_text := acc.1 ++ lr.1
    let block_chars := acc.2 ++ lr.2
    if endsWithSTN lr.1 then (block_text, block_chars)
    else
      let block_text := block_text ++ [' ']
      match lr.2.getLast? with
      | some last => (block_text, block_chars ++ [spaceBoxAfter last])
      | none => (block_text, block_chars)

/-- `_process_block` (`pdf_parser.py` lines 85-117). -/
def _process_block (block : RawBlock) (page_num : Nat) (page_height page_width : ℚ) :
    List Char × List CharBox :=
  block.lines.foldl (_process_block_step page_num page_height page_width) ([], [])

/-- The trailing-whitespace trim loop of `_finalize_block` (`pdf_parser.py`
lines 131-134): pop whitespace characters from the end of the block text,
popping the paired geometry entry when one exists. -/
def _trim_trailing (block_text : List Char) (block_chars : List CharBox) :
    List Char × List CharBox :=
  match h : block_text.getLast? with
  | some c =>
    if pyIsSpace c then _trim_trailing block_text.dropLast block_chars.dropLast
    else (block_text, block_chars)
  | none => (block_text, block_chars)
  termination_by block_text.length
  decreasing_by
    have hne : block_text ≠ [] := by
      intro hnil
      rw [hnil] at h
      simp at h
    have hpos := List.length_pos.mpr hne
    simp [List.length_dropLast]
    omega

/-- The synthetic block-separator newline entry (`pdf_parser.py` lines
142-151): zero width, positioned at the last entry's own `x`/`y`. -/
def nlBoxAt (last : CharBox) : CharBox :=
  ⟨last.page, last.x, last.y, 0, last.height,
   last.page_height, last.page_width, false, true⟩

/-- `_finalize_block` (`pdf_parser.py` lines 119-152): skip a block whose
text is whitespace-only (`if block_text.strip():`), else trim trailing
whitespace, append text and geometry, then the `"\n\n"` separator with
two synthetic newline entries. -/
def _finalize_block (block_text : List Char) (block_chars : List CharBox)
    (full_text : List Char) (char_map : List CharBox) : List Char × List CharBox :=
  if (cleanKey block_text).isEmpty then (full_text, char_map)
  else
    let tr := _trim_trailing block_text block_chars
    let ft := full_text ++ tr.1
    let cm := char_map ++ tr.2
    let ft := ft ++ ['\n', '\n']
    let cm :=
      match tr.2.getLast? with
      | some last => cm ++ [nlBoxAt last, nlBoxAt last]
      | none => cm
    (ft, cm)

/-- The reading-order sort key (`pdf_parser.py` line 179):
`(b["bbox"][1] // 10, b["bbox"][0])`, compared lexicographically. -/
def blockKey (b : RawBlock) : ℤ ×ₗ ℚ :=
  toLex (⌊b.bbox.y0 / 10⌋, b.bbox.x0)

/-- Key comparison for the stable block sort. -/
def blockLE (b1 b2 : RawBlock) : Prop := blockKey b1 ≤ blockKey b2

instance : DecidableRel blockLE := fun b1 b2 =>
  inferInstanceAs (Decidable (blockKey b1 ≤ blockKey b2))

instance : IsTotal RawBlock blockLE := ⟨fun b1 b2 => le_total (blockKey b1) (blockKey b2)⟩

instance : IsTrans RawBlock blockLE :=
  ⟨fun _ _ _ h1 h2 => le_trans h1 h2⟩

/-- `sorted(text_blocks, key=lambda b: (b["bbox"][1] // 10, b["bbox"][0]))`:
Python's stable sort by that key. -/
def sortBlocks (blocks : List RawBlock) : List RawBlock :=
  blocks.insertionSort blockLE

/-- The per-page body of `extract_text_with_coordinates` (`pdf_parser.py`
lines 168-185): metrics, 5%%/95%% bands, type-0 block filter, stable sort,
then per-block filter → process → finalize. -/
def processPage (page_num : Nat) (page : PageData)
    (acc : List Char × List CharBox) : List Char × List CharBox :=
  let page_height := page.page_height
  let page_width := page.page_width
  let header_height := page_height * (5 / 100)
  let footer_y := page_height * (95 / 100)
  let text_blocks := page.blocks.filter (fun b => b.type == 0)
  let sorted_blocks := sortBlocks text_blocks
  sorted_blocks.foldl
    (fun acc block =>
      if _is_block_filtered block.bbox header_height footer_y
          page.table_bboxes page.image_bboxes then acc
      else
        let pr := _process_block block page_num page_height page_width
        _finalize_block pr.1 pr.2 acc.1 acc.2)
    acc

/-- The page loop of `extract_text_with_coordinates`, `page_num` counting
up from 0. -/
def extractPages : List PageData → Nat → (List Char × List CharBox) →
    List Char × List CharBox
  | [], _, acc => acc
  | p :: rest, page_num, acc => extractPages rest (page_num + 1) (processPage page_num p acc)

/-- `extract_text_with_coordinates(data)` (`pdf_parser.py` lines 154-187),
as a function of the per-page data the document yields. -/
def extract_text_with_coordinates (pages : List PageData) : List Char × List CharBox :=
  extractPages pages 0 ([], [])

/-- The same call with the document-handle lifecycle made explicit: a
`none` page models `page.get_text` (or table/image detection) raising a
parse error, which propagates out of the loop.  The `Bool` records
whether the `doc.close()` on line 186 was reached; the `Option` is the
returned result (`none` = the call raised). -/
def extractPagesWithHandle : List (Option PageData) → Nat →
    (List Char × List CharBox) → Bool × Option (List Char × List CharBox)
  | [], _, acc => (true, some acc)
  | none :: _, _, _ => (false, none)
  | some p :: rest, page_num, acc =>
    extractPagesWithHandle rest (page_num + 1) (processPage page_num p acc)

/-- `extract_text_with_coordinates` with the handle lifecycle observable. -/
def extractWithHandle (pages : List (Option PageData)) :
    Bool × Option (List Char × List CharBox) :=
  extractPagesWithHandle pages 0 ([], [])

/-!
## Concrete test inputs

Small concrete documents used to instantiate the theorems below.
-/

/-- A glyph with character `c`, left edge `x`, top 10, width 2, height 2. -/
def glyph (c : Char) (x : ℚ) : RawChar := ⟨some c, ⟨x, 10, x + 2, 12⟩⟩

/-- A page with one type-0 block of two lines, "ab" and "cd". -/
def pageA : PageData :=
  ⟨100, 50, [], [],
   [⟨0, ⟨0, 10, 4, 12⟩,
     [⟨[⟨0, [glyph 'a' 0, glyph 'b' 2]⟩]⟩,
      ⟨[⟨0, [glyph 'c' 0, glyph 'd' 2]⟩]⟩]⟩]⟩

/-- A block with a single line whose text is "a\r": it ends in a
whitespace character that is not space, newline or tab. -/
def blockCR : RawBlock :=
  ⟨0, ⟨0, 10, 4, 12⟩, [⟨[⟨0, [glyph 'a' 0, glyph '\r' 2]⟩]⟩]⟩

/-!
## Invariants of the extraction pipeline
-/

/-- A geometry entry produced for a real glyph (no synthetic flag). -/
def realBox (b : CharBox) : Prop := b.is_space = false ∧ b.is_newline = false

/-- Adjacency relation of the geometry map: each synthetic entry is
derived from the entry just before it. -/
def synthRel (a b : CharBox) : Prop :=
  (b.is_space = true → b = spaceBoxAfter a ∧ realBox a) ∧
  (b.is_newline = true → (realBox a ∧ b = nlBoxAt a) ∨ (a.is_newline = true ∧ b = a))

/-- Invariant of an in-progress `(block_text, block_chars)` pair. -/
structure BlockInv (bt : List Char) (bc : List CharBox) : Prop where
  len_eq : bt.length = bc.length
  pairing : ∀ (i : Nat) (b : CharBox), bc[i]? = some b → b.is_space = true → bt[i]? = some ' '
  no_newline : ∀ b ∈ bc, b.is_newline = false
  chain : List.Chain' synthRel bc
  head_real : ∀ b ∈ bc.head?, realBox b

/-- Invariant of the accumulated `(full_text, char_map)` pair. -/
structure CMInv (ft : List Char) (cm : List CharBox) : Prop where
  len_eq : ft.length = cm.length
  chain : List.Chain' synthRel cm
  head_real : ∀ b ∈ cm.head?, realBox b
  nl_width : ∀ b ∈ cm, b.is_newline = true → b.width = 0

lemma foldl_preserve {β α : Type _} {f : β → α → β} {P : β → Prop}
    (hf : ∀ b a, P b → P (f b a)) : ∀ (l : List α) (b : β), P b → P (l.foldl f b) := by
  intro l
  induction l with
  | nil => intro b hb; exact hb
  | cons x xs ih => intro b hb; exact ih (f b x) (hf b x hb)

lemma process_char_spec (page_num : Nat) (page_height page_width : ℚ)
    (acc : List Char × List CharBox) (ci : RawChar)
    (h : acc.1.length = acc.2.length ∧ ∀ b ∈ acc.2, realBox b) :
    (_process_char page_num page_height page_width acc ci).1.length =
      (_process_char page_num page_height page_width acc ci).2.length ∧
    ∀ b ∈ (_process_char page_num page_height page_width acc ci).2, realBox b := by
  obtain ⟨hlen, hreal⟩ := h
  unfold _process_char
  cases ci.c with
  | none => exact ⟨hlen, hreal⟩
  | some c =>
    refine ⟨by simp [hlen], ?_⟩
    intro b hb
    rcases List.mem_append.mp hb with hb | hb
    · exact hreal b hb
    · simp at hb
      subst hb
      exact ⟨rfl, rfl⟩

lemma process_line_spec (line : RawLine) (page_num : Nat) (page_height page_width : ℚ) :
    (_process_line line page_num page_height page_width).1.length =
      (_process_line line page_num page_height page_width).2.length ∧
    ∀ b ∈ (_process_line line page_num page_height page_width).2, realBox b := by
  have h := foldl_preserve
    (P := fun acc : List Char × List CharBox =>
      acc.1.length = acc.2.length ∧ ∀ b ∈ acc.2, realBox b)
    (f := fun acc span => span.chars.foldl (_process_char page_num page_height page_width) acc)
    (fun acc span hacc =>
      foldl_preserve
        (fun acc2 ci h2 => process_char_spec page_num page_height page_width acc2 ci h2)
        span.chars acc hacc)
    (line.spans.insertionSort spanLE) ([], []) ⟨rfl, by simp⟩
  exact h

lemma chain'_of_forall_real {l : List CharBox} (h : ∀ b ∈ l, realBox b) :
    List.Chain' synthRel l := by
  induction l with
  | nil => exact List.chain'_nil
  | cons x xs ih =>
    apply List.Chain'.cons'
    · exact ih (fun b hb => h b (List.mem_cons_of_mem x hb))
    · intro y hy
      have hyl : y ∈ xs := List.mem_of_mem_head? hy
      have := h y (List.mem_cons_of_mem x hyl)
      exact ⟨fun hs => absurd hs (by simp [this.1]), fun hn => absurd hn (by simp [this.2])⟩

lemma blockInv_append_real {bt lt : List Char} {bc lc : List CharBox}
    (h : BlockInv bt bc) (hlen : lt.length = lc.length)
    (hreal : ∀ b ∈ lc, realBox b) : BlockInv (bt ++ lt) (bc ++ lc) := by
  refine ⟨by simp [h.len_eq, hlen], ?_, ?_, ?_, ?_⟩
  · intro i b hib hsp
    by_cases hi : i < bc.length
    · rw [List.getElem?_append_left hi] at hib
      rw [List.getElem?_append_left (h.len_eq ▸ hi)]
      exact h.pairing i b hib hsp
    · push_neg at hi
      rw [List.getElem?_append_right hi] at hib
      have : b ∈ lc := List.getElem?_mem hib
      exact absurd hsp (by simp [(hreal b this).1])
  · intro b hb
    rcases List.mem_append.mp hb with hb | hb
    · exact h.no_newline b hb
    · exact (hreal b hb).2
  · rw [List.chain'_append]
    refine ⟨h.chain, chain'_of_forall_real hreal, ?_⟩
    intro x _ y hy
    have hyreal := hreal y (List.mem_of_mem_head? hy)
    exact ⟨fun hs => absurd hs (by simp [hyreal.1]),
           fun hn => absurd hn (by simp [hyreal.2])⟩
  · intro b hb
    cases bc with
    | nil =>
      simp at hb
      exact hreal b (List.mem_of_mem_head? hb)
    | cons x xs =>
      simp at hb
      subst hb
      exact h.head_real x (by simp)

lemma blockInv_append_space {bt : List Char} {bc : List CharBox} {last : CharBox}
    (h : BlockInv bt bc) (hlast : bc.getLast? = some last)
    (hreal : realBox last) : BlockInv (bt ++ [' ']) (bc ++ [spaceBoxAfter last]) := by
  have hbcne : bc ≠ [] := by
    intro hnil; rw [hnil] at hlast; simp at hlast
  refine ⟨by simp [h.len_eq], ?_, ?_, ?_, ?_⟩
  · intro i b hib hsp
    by_cases hi : i < bc.length
    · rw [List.getElem?_append_left hi] at hib
      rw [List.getElem?_append_left (h.len_eq ▸ hi)]
      exact h.pairing i b hib hsp
    · push_neg at hi
      have hbtlen := h.len_eq
      rw [List.getElem?_append_right hi] at hib
      have hi2 : i - bc.length < 1 := by
        by_contra hge
        push_neg at hge
        rw [List.getElem?_eq_none (by simpa using hge)] at hib
        exact Option.noConfusion hib
      rw [List.getElem?_append_right (by omega : bt.length ≤ i)]
      have hzero : i - bt.length = 0 := by omega
      rw [hzero]
      rfl
  · intro b hb
    rcases List.mem_append.mp hb with hb | hb
    · exact h.no_newline b hb
    · simp at hb
      subst hb
      rfl
  · rw [List.chain'_append]
    refine ⟨h.chain, List.chain'_singleton _, ?_⟩
    intro x hx y hy
    simp at hy
    subst hy
    rw [hlast] at hx
    simp at hx
    subst hx
    exact ⟨fun _ => ⟨rfl, hreal⟩, fun hn => absurd hn (by simp [spaceBoxAfter])⟩
  · intro b hb
    cases bc with
    | nil => exact absurd rfl hbcne
    | cons x xs =>
      simp at hb
      subst hb
      exact h.head_real x (by simp)

lemma blockInv_step (page_num : Nat) (page_height page_width : ℚ)
    (acc : List Char × List CharBox) (line : RawLine)
    (h : BlockInv acc.1 acc.2) :
    BlockInv (_process_block_step page_num page_height page_width acc line).1
      (_process_block_step page_num page_height page_width acc line).2 := by
  obtain ⟨hlen_lr, hreal_lr⟩ := process_line_spec line page_num page_height page_width
  unfold _process_block_step
  set lr := _process_line line page_num page_height page_width with hlr
  by_cases hemp : lr.1.isEmpty
  · simp only [hemp, if_true]
    exact h
  · simp only [hemp, if_false]
    have happ := blockInv_append_real h hlen_lr hreal_lr
    by_cases hend : endsWithSTN lr.1
    · simp only [hend, if_true]
      exact happ
    · simp only [hend, if_false]
      have hlr2ne : lr.2 ≠ [] := by
        intro hnil
        rw [List.isEmpty_iff] at hemp
        exact hemp (List.length_eq_zero.mp (by rw [hlen_lr, hnil]; rfl))
      obtain ⟨last, hlast⟩ := Option.ne_none_iff_exists.mp
        (by simpa [List.getLast?_eq_none_iff] using hlr2ne :
          lr.2.getLast? ≠ none)
      rw [← hlast]
      have hlastmem : last ∈ lr.2 := List.mem_of_mem_getLast? hlast.symm
      have hlastreal := hreal_lr last hlastmem
      have hlast2 : (acc.2 ++ lr.2).getLast? = some last := by
        rw [List.getLast?_append_of_ne_nil acc.2 hlr2ne]
        exact hlast.symm
      exact blockInv_append_space happ hlast2 hlastreal

lemma blockInv_process_block (block : RawBlock) (page_num : Nat)
    (page_height page_width : ℚ) :
    BlockInv (_process_block block page_num page_height page_width).1
      (_process_block block page_num page_height page_width).2 := by
  unfold _process_block
  have hstart : BlockInv ([] : List Char) ([] : List CharBox) :=
    ⟨rfl, by intro i b hib _; simp at hib, by simp, List.chain'_nil, by simp⟩
  exact foldl_preserve
    (P := fun acc : List Char × List CharBox => BlockInv acc.1 acc.2)
    (fun acc l hacc => blockInv_step page_num page_height page_width acc l hacc)
    block.lines ([], []) hstart

lemma head?_dropLast_sub {α : Type _} (l : List α) (b : α)
    (h : (l.dropLast).head? = some b) : l.head? = some b := by
  cases l with
  | nil => simp at h
  | cons x xs =>
    cases xs with
    | nil => simp at h
    | cons y ys => simp [List.dropLast] at h ⊢; exact h

lemma blockInv_dropLast {bt : List Char} {bc : List CharBox}
    (h : BlockInv bt bc) : BlockInv bt.dropLast bc.dropLast := by
  refine ⟨by simp [h.len_eq], ?_, ?_, ?_, ?_⟩
  · intro i b hib hsp
    have hlt : i < bc.dropLast.length := by
      by_contra hge
      rw [List.getElem?_eq_none (by omega)] at hib
      exact Option.noConfusion hib
    rw [List.length_dropLast] at hlt
    have hbc : bc.dropLast[i]? = bc[i]? := by
      rw [List.dropLast_eq_take, List.getElem?_take]
      simp [hlt]
    have hbt : bt.dropLast[i]? = bt[i]? := by
      rw [List.dropLast_eq_take, List.getElem?_take]
      have : i < bt.length - 1 := by rw [h.len_eq]; exact hlt
      simp [this]
    rw [hbc] at hib
    rw [hbt]
    exact h.pairing i b hib hsp
  · intro b hb
    exact h.no_newline b (List.dropLast_sublist bc |>.mem hb)
  · exact List.Chain'.prefix h.chain (List.dropLast_prefix bc)
  · intro b hb
    exact h.head_real b (head?_dropLast_sub bc b hb)

lemma trim_eq_of_ws {bt : List Char} {bc : List CharBox} {c : Char}
    (hlast : bt.getLast? = some c) (hws : pyIsSpace c = true) :
    _trim_trailing bt bc = _trim_trailing bt.dropLast bc.dropLast := by
  rw [_trim_trailing]
  split
  next c2 heq =>
    rw [hlast] at heq
    injection heq with heq2
    subst heq2
    simp [hws]
  next heq => rw [hlast] at heq; exact Option.noConfusion heq

lemma trim_eq_of_not_ws {bt : List Char} {bc : List CharBox} {c : Char}
    (hlast : bt.getLast? = some c) (hws : pyIsSpace c = false) :
    _trim_trailing bt bc = (bt, bc) := by
  rw [_trim_trailing]
  split
  next c2 heq =>
    rw [hlast] at heq
    injection heq with heq2
    subst heq2
    simp [hws]
  next heq =>
    rw [hlast] at heq

lemma trim_eq_of_nil {bt : List Char} {bc : List CharBox}
    (hlast : bt.getLast? = none) : _trim_trailing bt bc = (bt, bc) := by
  rw [_trim_trailing]
  split
  next c2 heq => rw [hlast] at heq; exact Option.noConfusion heq
  next heq => rfl

lemma trim_spec (bt : List Char) (bc : List CharBox) :
    cleanKey (_trim_trailing bt bc).1 = cleanKey bt ∧
    (∀ c ∈ (_trim_trailing bt bc).1.getLast?, pyIsSpace c = false) ∧
    (BlockInv bt bc → BlockInv (_trim_trailing bt bc).1 (_trim_trailing bt bc).2) := by
  induction bt, bc using _trim_trailing.induct with
  | case1 bt bc c hlast hws ih =>
    rw [trim_eq_of_ws hlast hws]
    refine ⟨?_, ih.2.1, fun hinv => ih.2.2 (blockInv_dropLast hinv)⟩
    rw [ih.1]
    have hne : bt ≠ [] := by
      intro hnil; rw [hnil] at hlast; simp at hlast
    conv_rhs => rw [← List.dropLast_append_getLast hne]
    have hc : bt.getLast hne = c := by
      have := List.getLast?_eq_getLast bt hne
      rw [hlast] at this
      exact (Option.some_injective _ this).symm
    unfold cleanKey
    rw [List.filter_append]
    simp [hc, hws]
  | case2 bt bc c hlast hws =>
    have hws2 : pyIsSpace c = false := by simpa using hws
    rw [trim_eq_of_not_ws hlast hws2]
    refine ⟨rfl, ?_, fun hinv => hinv⟩
    intro c2 hc2
    simp only [hlast, Option.mem_def, Option.some_inj] at hc2
    subst hc2
    exact hws2
  | case3 bt bc hlast =>
    rw [trim_eq_of_nil hlast]
    exact ⟨rfl, by intro c hc; rw [hlast] at hc; simp at hc, fun hinv => hinv⟩

lemma finalize_spec {bt : List Char} {bc : List CharBox} {ft : List Char}
    {cm : List CharBox} (hcm : CMInv ft cm) (hbi : BlockInv bt bc) :
    CMInv (_finalize_block bt bc ft cm).1 (_finalize_block bt bc ft cm).2 := by
  by_cases hkey : (cleanKey bt).isEmpty
  · unfold _finalize_block
    simp only [hkey, if_true]
    exact hcm
  · obtain ⟨hck, hlastws, hbinvf⟩ := trim_spec bt bc
    have hbi2 := hbinvf hbi
    set tr := _trim_trailing bt bc with htr
    have hbt2ne : tr.1 ≠ [] := by
      intro hnil
      rw [hnil] at hck
      rw [List.isEmpty_iff] at hkey
      exact hkey (by rw [← hck]; rfl)
    have hbc2ne : tr.2 ≠ [] := by
      intro hnil
      apply hbt2ne
      have := hbi2.len_eq
      rw [hnil] at this
      exact List.length_eq_zero.mp this
    obtain ⟨last, hlast⟩ := Option.ne_none_iff_exists.mp
      (by simpa [List.getLast?_eq_none_iff] using hbc2ne : tr.2.getLast? ≠ none)
    have hlast2 : tr.2.getLast? = some last := hlast.symm
    have hkey2 : (cleanKey bt).isEmpty = false := by simpa using hkey
    have hres : _finalize_block bt bc ft cm =
        (ft ++ tr.1 ++ ['\n', '\n'], cm ++ tr.2 ++ [nlBoxAt last, nlBoxAt last]) := by
      simp only [_finalize_block, hkey2, Bool.false_eq_true, if_false, ← htr, hlast2]
    rw [hres]
    -- the last surviving geometry entry is a real glyph entry
    obtain ⟨lc, hlc⟩ := Option.ne_none_iff_exists.mp
      (by simpa [List.getLast?_eq_none_iff] using hbt2ne : tr.1.getLast? ≠ none)
    have hlc2 : tr.1.getLast? = some lc := hlc.symm
    have hlcws : pyIsSpace lc = false := hlastws lc hlc2
    have hlen2 := hbi2.len_eq
    have hlast_real : realBox last := by
      constructor
      · by_contra hsp
        rw [Bool.not_eq_false] at hsp
        have hidx : tr.2[tr.2.length - 1]? = some last := by
          rw [← List.getLast?_eq_getElem?]
          exact hlast2
        have hpair := hbi2.pairing (tr.2.length - 1) last hidx hsp
        have hidx2 : tr.1[tr.1.length - 1]? = some lc := by
          rw [← List.getLast?_eq_getElem?]
          exact hlc2
        rw [hlen2] at hidx2
        rw [hpair] at hidx2
        injection hidx2 with hlceq
        rw [← hlceq] at hlcws
        simp [pyIsSpace] at hlcws
      · exact hbi2.no_newline last (List.mem_of_mem_getLast? hlast2)
    refine ⟨?_, ?_, ?_, ?_⟩
    · simp [hcm.len_eq, hlen2]
    · rw [List.chain'_append]
      refine ⟨?_, ?_, ?_⟩
      · rw [List.chain'_append]
        refine ⟨hcm.chain, hbi2.chain, ?_⟩
        intro x _ y hy
        have hyreal := hbi2.head_real y hy
        exact ⟨fun hs => absurd hs (by simp [hyreal.1]),
               fun hn => absurd hn (by simp [hyreal.2])⟩
      · refine List.chain'_cons.mpr ⟨?_, List.chain'_singleton _⟩
        exact ⟨fun hs => absurd hs (by simp [nlBoxAt]),
               fun _ => Or.inr ⟨rfl, rfl⟩⟩
      · intro x hx y hy
        rw [List.getLast?_append_of_ne_nil cm hbc2ne, hlast2] at hx
        simp only [Option.mem_def, Option.some_inj] at hx
        subst hx
        simp only [List.head?_cons, Option.mem_def, Option.some_inj] at hy
        subst hy
        exact ⟨fun hs => absurd hs (by simp [nlBoxAt]),
               fun _ => Or.inl ⟨hlast_real, rfl⟩⟩
    · intro b hb
      cases hcmnil : cm with
      | nil =>
        subst hcmnil
        cases htr2 : tr.2 with
        | nil => exact absurd htr2 hbc2ne
        | cons x xs =>
          rw [htr2] at hb
          simp at hb
          subst hb
          have := hbi2.head_real x (by rw [htr2]; simp)
          exact this
      | cons x xs =>
        subst hcmnil
        simp at hb
        subst hb
        exact hcm.head_real x (by simp)
    · intro b hb hbn
      rcases List.mem_append.mp hb with hb | hb
      · rcases List.mem_append.mp hb with hb | hb
        · exact hcm.nl_width b hb hbn
        · exact absurd hbn (by simp [hbi2.no_newline b hb])
      · have hb2 : b = nlBoxAt last ∨ b = nlBoxAt last := by simpa using hb
        rcases hb2 with rfl | rfl <;> rfl

lemma cmInv_processPage (page_num : Nat) (page : PageData)
    (acc : List Char × List CharBox) (h : CMInv acc.1 acc.2) :
    CMInv (processPage page_num page acc).1 (processPage page_num page acc).2 := by
  unfold processPage
  apply foldl_preserve (P := fun a : List Char × List CharBox => CMInv a.1 a.2)
  · intro a b hb
    by_cases hf : _is_block_filtered b.bbox (page.page_height * (5 / 100))
        (page.page_height * (95 / 100)) page.table_bboxes page.image_bboxes
    · simpa [hf] using hb
    · simp only [hf, if_false]
      exact finalize_spec hb (blockInv_process_block b page_num page.page_height page.page_width)
  · exact h

lemma cmInv_extractPages (pages : List PageData) :
    ∀ (n : Nat) (acc : List Char × List CharBox), CMInv acc.1 acc.2 →
      CMInv (extractPages pages n acc).1 (extractPages pages n acc).2 := by
  induction pages with
  | nil => intro n acc h; exact h
  | cons p rest ih =>
    intro n acc h
    exact ih (n + 1) (processPage n p acc) (cmInv_processPage n p acc h)

lemma cmInv_extract (pages : List PageData) :
    CMInv (extract_text_with_coordinates pages).1 (extract_text_with_coordinates pages).2 := by
  unfold extract_text_with_coordinates
  exact cmInv_extractPages pages 0 ([], [])
    ⟨rfl, List.chain'_nil, by simp, by simp⟩

/-!
## Claim theorems
-/

/-- C1: for every input whose extraction succeeds, the pair returned by
`extract_text_with_coordinates` satisfies
`length(full_text) == length(char_map)`: every append to the text is
matched by an append to the geometry map and every trim removes paired
entries, so the invariant holds after every block is finalized. -/
theorem C1_length_invariant (pages : List PageData) :
    (extract_text_with_coordinates pages).1.length =
      (extract_text_with_coordinates pages).2.length :=
  (cmInv_extract pages).len_eq

/-- C5 counterexample: on the concrete page `pageA`, the synthetic
inter-line space entry (index 2 of the geometry map) carries the
preceding glyph's width `2`, not zero width, and the synthetic
block-separator newline entry (index 5) sits at the preceding real
glyph's own `x`, not at its trailing position `x + width`.  This
refutes the claim that every synthetic entry carries zero width and the
trailing position of the preceding real glyph. -/
theorem C5_counterexample :
    (∃ b ∈ (extract_text_with_coordinates [pageA]).2,
        b.is_space = true ∧ ¬ b.width = 0) ∧
    (∃ a b, (extract_text_with_coordinates [pageA]).2[4]? = some a ∧
        (extract_text_with_coordinates [pageA]).2[5]? = some b ∧
        a.is_space = false ∧ a.is_newline = false ∧
        b.is_newline = true ∧ ¬ b.x = a.x + a.width) := by
  constructor
  · refine ⟨⟨1, 4, 88, 2, 2, 100, 50, true, false⟩, ?_, rfl, by with_unfolding_all decide⟩
    with_unfolding_all decide
  · refine ⟨⟨1, 2, 88, 2, 2, 100, 50, false, false⟩,
            ⟨1, 2, 88, 0, 2, 100, 50, false, true⟩, ?_, ?_, rfl, rfl, rfl,
            by with_unfolding_all decide⟩
    · with_unfolding_all decide
    · with_unfolding_all decide

/-- C5 (amended): every synthetic block-separator newline entry carries
zero width; and each synthetic entry is derived from the geometry entry
immediately before it: an inter-line space entry `b` following `a`
equals `spaceBoxAfter a` (trailing position `x = a.x + a.width`, same
`y`/`height`, and `a`'s own width — not zero), where `a` is a real
glyph entry; a newline entry `b` following `a` is either `nlBoxAt a`
(zero width, at the preceding real glyph's own `x`/`y`) or a copy of a
preceding newline entry; and the first entry of the map is never
synthetic. -/
theorem C5_amended_synthetic_entries (pages : List PageData) :
    (∀ b ∈ (extract_text_with_coordinates pages).2, b.is_newline = true → b.width = 0) ∧
    (∀ b ∈ ((extract_text_with_coordinates pages).2).head?, realBox b) ∧
    List.Chain' synthRel (extract_text_with_coordinates pages).2 := by
  have h := cmInv_extract pages
  exact ⟨fun b hb => h.nl_width b hb, h.head_real, h.chain⟩

/-- Witness for C5 (amended) at the concrete page `pageA`: the newline
entry of `pageA`'s geometry map indeed has width `0`. -/
theorem C5_amended_witness :
    ({ page := 1, x := 2, y := 88, width := 0, height := 2, page_height := 100,
       page_width := 50, is_space := false, is_newline := true } : CharBox).width = 0 := by
  have h := C5_amended_synthetic_entries [pageA]
  exact h.1 ⟨1, 2, 88, 0, 2, 100, 50, false, true⟩ (by with_unfolding_all decide) rfl

lemma extractPagesWithHandle_closed (pages : List (Option PageData)) :
    ∀ (n : Nat) (acc : List Char × List CharBox),
      (extractPagesWithHandle pages n acc).1 = pages.all Option.isSome := by
  induction pages with
  | nil => intro n acc; rfl
  | cons p rest ih =>
    intro n acc
    cases p with
    | none => rfl
    | some pd => simpa using ih (n + 1) (processPage n pd acc)

/-- C9 counterexample: for the one-page document whose page raises a
parse error mid-loop, `extract_text_with_coordinates` propagates the
error without reaching the `doc.close()` on line 186 (there is no
`try`/`finally` and no context manager), so the handle is not closed on
that exit path. -/
theorem C9_counterexample : ¬ ((extractWithHandle [none]).1 = true) := by
  decide

/-- C9 (amended): the document handle is closed exactly on the normal
exit path — the close flag is `true` iff every page is drained without a
parse failure; a mid-document parse failure propagates the error and the
function itself never closes the handle. -/
theorem C9_amended_handle_close (pages : List (Option PageData)) :
    (extractWithHandle pages).1 = pages.all Option.isSome :=
  extractPagesWithHandle_closed pages 0 ([], [])

lemma foldl_skip_filter {β α : Type _} (f : β → α → β) (p : α → Bool) :
    ∀ (l : List α) (acc : β),
      l.foldl (fun acc a => if p a then acc else f acc a) acc =
        (l.filter (fun a => ! p a)).foldl f acc := by
  intro l
  induction l with
  | nil => intro acc; rfl
  | cons x xs ih =>
    intro acc
    by_cases hx : p x <;> simp [hx, ih]

/-- C6: a block is excluded from extraction iff its rectangle lies fully
above the header line (5%% of page height) or fully below the footer line
(95%% of page height), or its centroid lies inside some table rectangle,
or its centroid lies inside some image rectangle; the overlap of the
block rectangle with tables/images plays no role, only the centroid.
Moreover `processPage` processes exactly the non-excluded sorted type-0
blocks. -/
theorem C6_block_filtering :
    (∀ (bbox : Rect) (ph : ℚ) (tables images : List Rect),
      _is_block_filtered bbox (ph * (5 / 100)) (ph * (95 / 100)) tables images = true ↔
        (bbox.y1 < ph * (5 / 100) ∨ bbox.y0 > ph * (95 / 100) ∨
         (∃ t ∈ tables,
            rectContains t ((bbox.x0 + bbox.x1) / 2) ((bbox.y0 + bbox.y1) / 2) = true) ∨
         (∃ i ∈ images,
            rectContains i ((bbox.x0 + bbox.x1) / 2) ((bbox.y0 + bbox.y1) / 2) = true))) ∧
    (∀ (page_num : Nat) (page : PageData) (acc : List Char × List CharBox),
      processPage page_num page acc =
        ((sortBlocks (page.blocks.filter (fun b => b.type == 0))).filter
            (fun b => ! _is_block_filtered b.bbox (page.page_height * (5 / 100))
                (page.page_height * (95 / 100)) page.table_bboxes page.image_bboxes)).foldl
          (fun acc block =>
            let pr := _process_block block page_num page.page_height page.page_width
            _finalize_block pr.1 pr.2 acc.1 acc.2)
          acc) := by
  constructor
  · intro bbox ph tables images
    simp only [_is_block_filtered]
    split_ifs with h1 h2 h3
    · exact iff_of_true rfl
        (by rcases h1 with h | h; exacts [Or.inl h, Or.inr (Or.inl h)])
    · rw [List.any_eq_true] at h2
      exact iff_of_true rfl (Or.inr (Or.inr (Or.inl h2)))
    · rw [List.any_eq_true] at h3
      exact iff_of_true rfl (Or.inr (Or.inr (Or.inr h3)))
    · rw [List.any_eq_true] at h2 h3
      constructor
      · intro hcontra
        simp at hcontra
      · intro hrhs
        rcases hrhs with h | h | h | h
        · exact absurd (Or.inl h) h1
        · exact absurd (Or.inr h) h1
        · exact (h2 h).elim
        · exact (h3 h).elim
  · intro page_num page acc
    unfold processPage
    rw [foldl_skip_filter]

/-- C7 counterexample: the check on `pdf_parser.py` line 103 is
`endswith((" ", "\n", "\t"))`, not "ends in any whitespace character".
The line "a\r" ends in the whitespace character CR, yet the code still
appends a synthetic space character and an `is_space` geometry entry. -/
theorem C7_counterexample :
    pyIsSpace '\x0d' = true ∧
    (_process_block blockCR 0 100 50).1 = ['a', '\x0d', ' '] ∧
    (_process_block blockCR 0 100 50).2.map CharBox.is_space = [false, false, true] := by
  refine ⟨rfl, ?_, ?_⟩ <;> with_unfolding_all decide

/-- C7 (amended): within a block, after each non-empty line a single
synthetic space character (with a matching `is_space` entry placed at
`x = last.x + last.width`, same `y` and `height` as the last real
character `last` of the line) is appended iff the line's text does not
end in a space, newline, or tab character; a line ending in one of
those three characters gets no synthetic space (but a line ending in
any other whitespace character, e.g. carriage return, still gets one). -/
theorem C7_amended_interline_space (page_num : Nat) (page_height page_width : ℚ)
    (acc : List Char × List CharBox) (line : RawLine)
    (hne : (_process_line line page_num page_height page_width).1 ≠ []) :
    ∃ last, (_process_line line page_num page_height page_width).2.getLast? = some last ∧
      _process_block_step page_num page_height page_width acc line =
        (if endsWithSTN (_process_line line page_num page_height page_width).1 then
          (acc.1 ++ (_process_line line page_num page_height page_width).1,
           acc.2 ++ (_process_line line page_num page_height page_width).2)
        else
          (acc.1 ++ (_process_line line page_num page_height page_width).1 ++ [' '],
           acc.2 ++ (_process_line line page_num page_height page_width).2 ++
             [spaceBoxAfter last])) := by
  obtain ⟨hlen, _⟩ := process_line_spec line page_num page_height page_width
  set lr := _process_line line page_num page_height page_width with hlr
  have hlr2ne : lr.2 ≠ [] := by
    intro hnil
    exact hne (List.length_eq_zero.mp (by rw [hlen, hnil]; rfl))
  obtain ⟨last, hlast⟩ := Option.ne_none_iff_exists.mp
    (by simpa [List.getLast?_eq_none_iff] using hlr2ne : lr.2.getLast? ≠ none)
  refine ⟨last, hlast.symm, ?_⟩
  unfold _process_block_step
  rw [← hlr]
  have hne2 : lr.1.isEmpty = false := by simpa [List.isEmpty_iff] using hne
  simp only [hne2, Bool.false_eq_true, if_false]
  by_cases hend : endsWithSTN lr.1
  · simp [hend]
  · simp only [hend, Bool.false_eq_true, if_false, ← hlast]

/-- Witness for C7 (amended): the line "ab" does not end in
space/newline/tab, so a synthetic space character and an `is_space`
entry at the trailing position of 'b' are appended. -/
theorem C7_amended_witness :
    _process_block_step 0 100 50 ([], []) ⟨[⟨0, [glyph 'a' 0, glyph 'b' 2]⟩]⟩ =
      (['a', 'b', ' '],
       [⟨1, 0, 88, 2, 2, 100, 50, false, false⟩,
        ⟨1, 2, 88, 2, 2, 100, 50, false, false⟩,
        ⟨1, 4, 88, 2, 2, 100, 50, true, false⟩]) := by
  obtain ⟨last, hlast, heq⟩ := C7_amended_interline_space 0 100 50 ([], [])
    ⟨[⟨0, [glyph 'a' 0, glyph 'b' 2]⟩]⟩ (by with_unfolding_all decide)
  have hcomp : (_process_line ⟨[⟨0, [glyph 'a' 0, glyph 'b' 2]⟩]⟩ 0 100 50).2.getLast? =
      some ⟨1, 2, 88, 2, 2, 100, 50, false, false⟩ := by with_unfolding_all decide
  rw [hcomp] at hlast
  have hlb := (Option.some_inj.mp hlast).symm
  subst hlb
  rw [heq]
  with_unfolding_all decide

section StableSort

variable {α : Type _} {r : α → α → Prop} [DecidableRel r]

lemma orderedInsert_eq_cons_of_forall {x : α} {l : List α}
    (hx : ∀ b ∈ l, r x b) : l.orderedInsert r x = x :: l := by
  cases l with
  | nil => rfl
  | cons y ys => exact List.orderedInsert_of_le r ys (hx y (by simp))

lemma filter_orderedInsert_pos [IsTotal α r] [IsTrans α r]
    (p : α → Bool) {x : α} (hx : p x = true) :
    ∀ {l : List α}, l.Sorted r →
      (l.orderedInsert r x).filter p = (l.filter p).orderedInsert r x := by
  intro l
  induction l with
  | nil => intro _; simp [List.orderedInsert, hx]
  | cons y ys ih =>
    intro hsort
    by_cases hr : r x y
    · rw [List.orderedInsert_of_le r ys hr]
      by_cases hy : p y
      · simp only [List.filter_cons, hx, hy, if_true]
        rw [List.orderedInsert_of_le r (ys.filter p) hr]
      · simp only [List.filter_cons, hx, hy, if_true, Bool.false_eq_true, if_false]
        rw [orderedInsert_eq_cons_of_forall]
        intro b hb
        have hbys : b ∈ ys := List.mem_of_mem_filter hb
        have hyb : r y b := List.rel_of_sorted_cons hsort b hbys
        exact Trans.trans hr hyb
    · have hstep : (y :: ys).orderedInsert r x = y :: ys.orderedInsert r x := by
        simp [List.orderedInsert, hr]
      rw [hstep]
      by_cases hy : p y
      · simp only [List.filter_cons, hy, if_true]
        rw [ih hsort.of_cons]
        have hstep2 : (y :: ys.filter p).orderedInsert r x =
            y :: (ys.filter p).orderedInsert r x := by
          simp [List.orderedInsert, hr]
        rw [hstep2]
      · simp only [List.filter_cons, hy, Bool.false_eq_true, if_false]
        exact ih hsort.of_cons

lemma filter_orderedInsert_neg (p : α → Bool) {x : α} (hx : p x = false)
    (l : List α) : (l.orderedInsert r x).filter p = l.filter p := by
  rw [List.orderedInsert_eq_take_drop]
  rw [List.filter_append]
  simp only [List.filter_cons, hx, Bool.false_eq_true, if_false]
  rw [← List.filter_append, List.takeWhile_append_dropWhile]

lemma filter_insertionSort [IsTotal α r] [IsTrans α r] (p : α → Bool) :
    ∀ l : List α, (l.insertionSort r).filter p = (l.filter p).insertionSort r := by
  intro l
  induction l with
  | nil => rfl
  | cons x xs ih =>
    simp only [List.insertionSort]
    by_cases hx : p x
    · rw [filter_orderedInsert_pos p hx (List.sorted_insertionSort r xs), ih]
      simp only [List.filter_cons, hx, if_true]
      rfl
    · rw [Bool.not_eq_true] at hx
      rw [filter_orderedInsert_neg p hx, ih]
      simp only [List.filter_cons, hx, Bool.false_eq_true, if_false]

end StableSort

/-- C8: for every page, the surviving text blocks are emitted in the
deterministic order given by the key (floor-division of top-y by 10,
then left-x): the sort output is sorted by that key, ties are resolved
stably (blocks of equal key keep their source order), and filtering
blocks before or after the sort yields the same sequence, so the code's
sort-then-filter order realizes the spec's filter-then-sort pipeline. -/
theorem C8_reading_order (blocks : List RawBlock) (p : RawBlock → Bool) (k : ℤ ×ₗ ℚ) :
    List.Sorted blockLE (sortBlocks blocks) ∧
    (sortBlocks blocks).filter (fun b => decide (blockKey b = k)) =
      blocks.filter (fun b => decide (blockKey b = k)) ∧
    sortBlocks (blocks.filter p) = (sortBlocks blocks).filter p := by
  refine ⟨List.sorted_insertionSort blockLE blocks, ?_, ?_⟩
  · rw [show (sortBlocks blocks).filter (fun b => decide (blockKey b = k)) =
        (blocks.filter (fun b => decide (blockKey b = k))).insertionSort blockLE from
      filter_insertionSort _ blocks]
    apply List.Sorted.insertionSort_eq
    apply List.pairwise_of_forall_mem_list
    intro a ha b hb
    have hak : blockKey a = k := of_decide_eq_true (List.mem_filter.mp ha).2
    have hbk : blockKey b = k := of_decide_eq_true (List.mem_filter.mp hb).2
    unfold blockLE
    rw [hak, hbk]
  · exact (filter_insertionSort p blocks).symm

/-!
## The aligner scan loop invariant
-/

lemma pySlice_self (l : List α) (t : Nat) : pySlice l t t = [] := by
  unfold pySlice
  exact List.drop_eq_nil_of_le (by rw [List.length_take]; omega)

lemma pySlice_snoc {α : Type _} {l : List α} {m t : Nat} (hm : m ≤ t) (ht : t < l.length) :
    pySlice l m (t + 1) = pySlice l m t ++ [l.get ⟨t, ht⟩] := by
  unfold pySlice
  rw [← List.take_concat_get' l t ht]
  rw [List.drop_append_eq_append_drop]
  have hlen : (l.take t).length = t := by
    rw [List.length_take]
    omega
  rw [hlen]
  have hz : m - t = 0 := by omega
  rw [hz]
  rfl

lemma cleanKey_append (a b : List Char) :
    cleanKey (a ++ b) = cleanKey a ++ cleanKey b := by
  simp [cleanKey]

lemma cleanKey_singleton_ws {c : Char} (h : pyIsSpace c = true) :
    cleanKey [c] = [] := by
  simp [cleanKey, h]

lemma cleanKey_singleton_not_ws {c : Char} (h : pyIsSpace c = false) :
    cleanKey [c] = [c] := by
  simp [cleanKey, h]

section ScanSteps

variable {text key : List Char} {t sp : Nat} {ms : Option Nat}

lemma scanSvc_step_ws (h : t < text.length ∧ sp < key.length)
    (hws : pyIsSpace (text.get ⟨t, h.1⟩) = true) :
    scanLoopSvc text key t ms sp = scanLoopSvc text key (t + 1) ms sp := by
  rw [scanLoopSvc.eq_def, dif_pos h]
  rw [if_pos hws]

lemma scanSvc_step_match_none (h : t < text.length ∧ sp < key.length)
    (hws : pyIsSpace (text.get ⟨t, h.1⟩) = false)
    (heq : text.get ⟨t, h.1⟩ = key.get ⟨sp, h.2⟩) :
    scanLoopSvc text key t none sp = scanLoopSvc text key (t + 1) (some t) (sp + 1) := by
  rw [scanLoopSvc.eq_def, dif_pos h]
  rw [if_neg (by simpa using hws), if_pos heq]

lemma scanSvc_step_match_some {m : Nat} (h : t < text.length ∧ sp < key.length)
    (hws : pyIsSpace (text.get ⟨t, h.1⟩) = false)
    (heq : text.get ⟨t, h.1⟩ = key.get ⟨sp, h.2⟩) :
    scanLoopSvc text key t (some m) sp = scanLoopSvc text key (t + 1) (some m) (sp + 1) := by
  rw [scanLoopSvc.eq_def, dif_pos h]
  rw [if_neg (by simpa using hws), if_pos heq]

lemma scanSvc_step_mismatch_some {m : Nat} (h : t < text.length ∧ sp < key.length)
    (hws : pyIsSpace (text.get ⟨t, h.1⟩) = false)
    (hne : ¬ text.get ⟨t, h.1⟩ = key.get ⟨sp, h.2⟩) :
    scanLoopSvc text key t (some m) sp = scanLoopSvc text key (m + 1) none 0 := by
  rw [scanLoopSvc.eq_def, dif_pos h]
  rw [if_neg (by simpa using hws), if_neg hne]

lemma scanSvc_step_mismatch_none (h : t < text.length ∧ sp < key.length)
    (hws : pyIsSpace (text.get ⟨t, h.1⟩) = false)
    (hne : ¬ text.get ⟨t, h.1⟩ = key.get ⟨sp, h.2⟩) :
    scanLoopSvc text key t none sp = scanLoopSvc text key (t + 1) none sp := by
  rw [scanLoopSvc.eq_def, dif_pos h]
  rw [if_neg (by simpa using hws), if_neg hne]

lemma scanSvc_exit (h : ¬ (t < text.length ∧ sp < key.length)) :
    scanLoopSvc text key t ms sp = (t, ms, sp) := by
  rw [scanLoopSvc.eq_def, dif_neg h]

end ScanSteps

lemma scanLoopSvc_spec (text key : List Char) :
    ∀ (t : Nat) (ms : Option Nat) (sp : Nat),
      t ≤ text.length →
      sp ≤ key.length →
      (ms = none → sp = 0) →
      (∀ m, ms = some m → m < t ∧ cleanKey (pySlice text m t) = key.take sp) →
      (scanLoopSvc text key t ms sp).1 ≤ text.length ∧
      (scanLoopSvc text key t ms sp).2.2 ≤ key.length ∧
      (∀ m, (scanLoopSvc text key t ms sp).2.1 = some m →
        ms.getD t ≤ m ∧ m < (scanLoopSvc text key t ms sp).1 ∧
        cleanKey (pySlice text m (scanLoopSvc text key t ms sp).1) =
          key.take (scanLoopSvc text key t ms sp).2.2) := by
  intro t ms sp
  induction t, ms, sp using scanLoopSvc.induct text key with
  | case1 t ms sp h c hws ih =>
    intro ht hsp hnone hsome
    rw [scanSvc_step_ws h hws]
    have harg : ∀ m, ms = some m →
        m < t + 1 ∧ cleanKey (pySlice text m (t + 1)) = key.take sp := by
      intro m hm
      obtain ⟨hmt, hrec⟩ := hsome m hm
      refine ⟨by omega, ?_⟩
      rw [pySlice_snoc (by omega : m ≤ t) h.1]
      rw [cleanKey_append, cleanKey_singleton_ws hws, List.append_nil]
      exact hrec
    obtain ⟨ih1, ih2, ih3⟩ := ih (by omega) hsp hnone harg
    refine ⟨ih1, ih2, fun m hm => ?_⟩
    obtain ⟨ha, hb, hc2⟩ := ih3 m hm
    refine ⟨?_, hb, hc2⟩
    cases ms with
    | none =>
      simp only [Option.getD_none] at ha ⊢
      omega
    | some m0 => exact ha
  | case2 t sp h c hws heq ih =>
    intro ht hsp hnone hsome
    rw [scanSvc_step_match_none h (by simpa using hws) heq]
    have hspk : sp = 0 := hnone rfl
    subst hspk
    have harg : ∀ m, (some t : Option Nat) = some m →
        m < t + 1 ∧ cleanKey (pySlice text m (t + 1)) = key.take (0 + 1) := by
      intro m hm
      injection hm with hm2
      subst hm2
      refine ⟨by omega, ?_⟩
      have heq2 : text.get ⟨t, h.1⟩ = key.get ⟨0, h.2⟩ := heq
      rw [pySlice_snoc (le_refl t) h.1, pySlice_self, List.nil_append]
      rw [cleanKey_singleton_not_ws (by simpa using hws), heq2]
      rw [← List.take_concat_get' key 0 h.2]
      simp
    obtain ⟨ih1, ih2, ih3⟩ := ih (by omega) (by omega)
      (fun hcon => nomatch hcon) harg
    refine ⟨ih1, ih2, fun m hm => ?_⟩
    obtain ⟨ha, hb, hc2⟩ := ih3 m hm
    refine ⟨?_, hb, hc2⟩
    simp only [Option.getD_some, Option.getD_none] at ha ⊢
    omega
  | case3 t sp h c hws heq m0 ih =>
    intro ht hsp hnone hsome
    rw [scanSvc_step_match_some h (by simpa using hws) heq]
    obtain ⟨hmt, hrec⟩ := hsome m0 rfl
    have harg : ∀ m, (some m0 : Option Nat) = some m →
        m < t + 1 ∧ cleanKey (pySlice text m (t + 1)) = key.take (sp + 1) := by
      intro m hm
      injection hm with hm2
      subst hm2
      refine ⟨by omega, ?_⟩
      have heq2 : text.get ⟨t, h.1⟩ = key.get ⟨sp, h.2⟩ := heq
      rw [pySlice_snoc (by omega : m0 ≤ t) h.1]
      rw [cleanKey_append, cleanKey_singleton_not_ws (by simpa using hws), heq2, hrec]
      rw [← List.take_concat_get' key sp h.2]
      rfl
    obtain ⟨ih1, ih2, ih3⟩ := ih (by omega) (by omega)
      (fun hcon => nomatch hcon) harg
    refine ⟨ih1, ih2, fun m hm => ?_⟩
    obtain ⟨ha, hb, hc2⟩ := ih3 m hm
    refine ⟨?_, hb, hc2⟩
    simp only [Option.getD_some] at ha ⊢
    exact ha
  | case4 t sp h c hws hne m0 ih =>
    intro ht hsp hnone hsome
    rw [scanSvc_step_mismatch_some h (by simpa using hws) hne]
    obtain ⟨hmt, _⟩ := hsome m0 rfl
    obtain ⟨ih1, ih2, ih3⟩ := ih (by omega) (by omega)
      (fun _ => rfl) (fun m hm => nomatch hm)
    refine ⟨ih1, ih2, fun m hm => ?_⟩
    obtain ⟨ha, hb, hc2⟩ := ih3 m hm
    refine ⟨?_, hb, hc2⟩
    simp only [Option.getD_some, Option.getD_none] at ha ⊢
    omega
  | case5 t sp h c hws hne ih =>
    intro ht hsp hnone hsome
    rw [scanSvc_step_mismatch_none h (by simpa using hws) hne]
    obtain ⟨ih1, ih2, ih3⟩ := ih (by omega) hsp
      (fun _ => hnone rfl) (fun m hm => nomatch hm)
    refine ⟨ih1, ih2, fun m hm => ?_⟩
    obtain ⟨ha, hb, hc2⟩ := ih3 m hm
    refine ⟨?_, hb, hc2⟩
    simp only [Option.getD_none] at ha ⊢
    omega
  | case6 t ms sp h =>
    intro ht hsp hnone hsome
    rw [scanSvc_exit h]
    refine ⟨ht, hsp, fun m hm => ?_⟩
    have hm2 : ms = some m := hm
    obtain ⟨hmt, hrec⟩ := hsome m hm2
    refine ⟨?_, hmt, hrec⟩
    rw [hm2]
    simp

lemma matchRange_spec (text key : List Char) (c : Nat) (hc : c ≤ text.length)
    {m e : Nat} (hmr : matchRange text key c = some (m, e)) :
    c ≤ m ∧ m < e ∧ e ≤ text.length ∧ cleanKey (pySlice text m e) = key := by
  obtain ⟨h1, h2, h3⟩ := scanLoopSvc_spec text key c none 0 hc (Nat.zero_le _)
    (fun _ => rfl) (fun m2 hm2 => nomatch hm2)
  unfold matchRange at hmr
  cases hms : (scanLoopSvc text key c none 0).2.1 with
  | none =>
    rw [hms] at hmr
    simp at hmr
  | some m2 =>
    rw [hms] at hmr
    by_cases hsp : (scanLoopSvc text key c none 0).2.2 = key.length
    · simp only [hsp, if_true] at hmr
      simp at hmr
      obtain ⟨hm2eq, he2eq⟩ := hmr
      obtain ⟨hA, hB, hC⟩ := h3 m2 hms
      subst hm2eq
      subst he2eq
      refine ⟨by simpa using hA, hB, h1, ?_⟩
      rw [hC, hsp, List.take_length]
    · simp [hsp] at hmr

lemma alignRanges_nil_eq (text : List Char) (c : Nat) :
    alignRanges text [] c = [] := rfl

lemma alignRanges_cons_empty (text : List Char) {s : Sentence} (rest : List Sentence)
    (c : Nat) (hemp : (cleanKey s.text).isEmpty = true) :
    alignRanges text (s :: rest) c = none :: alignRanges text rest c := by
  simp only [alignRanges, hemp, if_true]

lemma alignRanges_cons_match (text : List Char) {s : Sentence} (rest : List Sentence)
    (c : Nat) (hemp : (cleanKey s.text).isEmpty = false) {m e : Nat}
    (hmr : matchRange text (cleanKey s.text) c = some (m, e)) :
    alignRanges text (s :: rest) c = some (m, e) :: alignRanges text rest e := by
  simp only [alignRanges, hemp, Bool.false_eq_true, if_false, hmr]

lemma alignRanges_cons_fail (text : List Char) {s : Sentence} (rest : List Sentence)
    (c : Nat) (hemp : (cleanKey s.text).isEmpty = false)
    (hmr : matchRange text (cleanKey s.text) c = none) :
    alignRanges text (s :: rest) c = none :: alignRanges text rest c := by
  simp only [alignRanges, hemp, Bool.false_eq_true, if_false, hmr]

lemma alignRanges_spec (text : List Char) :
    ∀ (ss : List Sentence) (c : Nat), c ≤ text.length →
      (∀ s o, (s, o) ∈ ss.zip (alignRanges text ss c) → ∀ m e, o = some (m, e) →
        c ≤ m ∧ m < e ∧ e ≤ text.length ∧
        cleanKey (pySlice text m e) = cleanKey s.text) ∧
      (∀ pr ∈ (alignRanges text ss c).filterMap id, c ≤ pr.1) ∧
      List.Chain' (fun a b : Nat × Nat => a.2 ≤ b.1)
        ((alignRanges text ss c).filterMap id) := by
  intro ss
  induction ss with
  | nil =>
    intro c hc
    exact ⟨by simp, by simp [alignRanges_nil_eq], by simp [alignRanges_nil_eq]⟩
  | cons s rest ih =>
    intro c hc
    by_cases hemp : (cleanKey s.text).isEmpty
    · rw [alignRanges_cons_empty text rest c hemp]
      obtain ⟨ih1, ih2, ih3⟩ := ih c hc
      refine ⟨?_, by simpa using ih2, by simpa using ih3⟩
      intro s2 o ho m e hsome
      rw [List.zip_cons_cons, List.mem_cons] at ho
      rcases ho with ho | ho
      · injection ho with hs2 hrange
        rw [hrange] at hsome
        exact Option.noConfusion hsome
      · exact ih1 s2 o ho m e hsome
    · rw [Bool.not_eq_true] at hemp
      cases hmr : matchRange text (cleanKey s.text) c with
      | none =>
        rw [alignRanges_cons_fail text rest c hemp hmr]
        obtain ⟨ih1, ih2, ih3⟩ := ih c hc
        refine ⟨?_, by simpa using ih2, by simpa using ih3⟩
        intro s2 o ho m e hsome
        rw [List.zip_cons_cons, List.mem_cons] at ho
        rcases ho with ho | ho
        · injection ho with hs2 hrange
          rw [hrange] at hsome
          exact Option.noConfusion hsome
        · exact ih1 s2 o ho m e hsome
      | some pr =>
        obtain ⟨m0, e0⟩ := pr
        obtain ⟨hcm, hme, hel, hrec⟩ := matchRange_spec text (cleanKey s.text) c hc hmr
        rw [alignRanges_cons_match text rest c hemp hmr]
        obtain ⟨ih1, ih2, ih3⟩ := ih e0 hel
        refine ⟨?_, ?_, ?_⟩
        · intro s2 o ho m e hsome
          rw [List.zip_cons_cons, List.mem_cons] at ho
          rcases ho with ho | ho
          · injection ho with hs2 hrange
            rw [hrange] at hsome
            injection hsome with hpr
            have hm : m0 = m := congrArg Prod.fst hpr
            have he : e0 = e := congrArg Prod.snd hpr
            subst hm
            subst he
            rw [← hs2] at hrec
            exact ⟨hcm, hme, hel, hrec⟩
          · obtain ⟨hA, hB, hC, hD⟩ := ih1 s2 o ho m e hsome
            exact ⟨by omega, hB, hC, hD⟩
        · intro pr hpr
          simp only [List.filterMap_cons, Option.mem_def, id] at hpr
          rw [List.mem_cons] at hpr
          rcases hpr with hpr | hpr
          · rw [hpr]
            exact hcm
          · have := ih2 pr hpr
            omega
        · simp only [List.filterMap_cons, id]
          apply List.Chain'.cons'
          · exact ih3
          · intro y hy
            have hymem : y ∈ (alignRanges text rest e0).filterMap id :=
              List.mem_of_mem_head? hy
            exact ih2 y hymem

/-- The enrichment each aligner iteration performs, as a function of the
sentence and its (possible) matched range. -/
def enrichWith (char_map : List CharBox) (p : Sentence × Option (Nat × Nat)) :
    EnrichedSentence :=
  ⟨p.1.id, p.1.text, p.2.elim [] (fun pr => pySlice char_map pr.1 pr.2)⟩

lemma svcAlign_eq_ranges (text : List Char) (cm : List CharBox) :
    ∀ (ss : List Sentence) (c : Nat),
      svcAlignLoop text cm ss c =
        (ss.zip (alignRanges text ss c)).map (enrichWith cm) := by
  intro ss
  induction ss with
  | nil => intro c; rfl
  | cons s rest ih =>
    intro c
    by_cases hemp : (cleanKey s.text).isEmpty
    · rw [alignRanges_cons_empty text rest c hemp]
      simp only [svcAlignLoop, hemp, if_true]
      rw [List.zip_cons_cons, List.map_cons, ih c]
      rfl
    · rw [Bool.not_eq_true] at hemp
      cases hms : (scanLoopSvc text (cleanKey s.text) c none 0).2.1 with
      | none =>
        have hmr : matchRange text (cleanKey s.text) c = none := by
          unfold matchRange
          rw [hms]
        rw [alignRanges_cons_fail text rest c hemp hmr]
        simp only [svcAlignLoop, hemp, Bool.false_eq_true, if_false, hms]
        rw [List.zip_cons_cons, List.map_cons, ih c]
        rfl
      | some m0 =>
        by_cases hsp : (scanLoopSvc text (cleanKey s.text) c none 0).2.2 =
            (cleanKey s.text).length
        · have hmr : matchRange text (cleanKey s.text) c =
              some (m0, (scanLoopSvc text (cleanKey s.text) c none 0).1) := by
            unfold matchRange
            rw [hms]
            simp [hsp]
          rw [alignRanges_cons_match text rest c hemp hmr]
          simp only [svcAlignLoop, hemp, Bool.false_eq_true, if_false, hms, hsp, if_true]
          rw [List.zip_cons_cons, List.map_cons,
            ih (scanLoopSvc text (cleanKey s.text) c none 0).1]
          rfl
        · have hmr : matchRange text (cleanKey s.text) c = none := by
            unfold matchRange
            rw [hms]
            simp [hsp]
          rw [alignRanges_cons_fail text rest c hemp hmr]
          simp only [svcAlignLoop, hemp, Bool.false_eq_true, if_false, hms, hsp]
          rw [List.zip_cons_cons, List.map_cons, ih c]
          rfl

/-- C2: the aligner's output is exactly the per-sentence enrichment by
the matched ranges: a matched sentence's `bboxes` is the contiguous
slice `char_map[match_start:match_end]` (an unmatched one gets `[]`),
and removing all whitespace from `full_text[match_start:match_end]`
yields exactly the sentence's whitespace-free clean key. -/
theorem C2_matched_slice_reconstruction (text : List Char) (cm : List CharBox)
    (ss : List Sentence) :
    map_sentences_to_bboxes ss text cm =
      (ss.zip (alignRanges text ss 0)).map (enrichWith cm) ∧
    ∀ s o, (s, o) ∈ ss.zip (alignRanges text ss 0) → ∀ m e, o = some (m, e) →
      cleanKey (pySlice text m e) = cleanKey s.text := by
  refine ⟨svcAlign_eq_ranges text cm ss 0, ?_⟩
  intro s o ho m e hsome
  exact ((alignRanges_spec text ss 0 (Nat.zero_le _)).1 s o ho m e hsome).2.2.2

/-- Witness for C2 at a concrete document: in text "a b" the sentence
"ab" matches the range `[0, 3)`, and stripping whitespace from the
matched substring "a b" gives back the clean key "ab". -/
theorem C2_witness :
    cleanKey (pySlice ['a', ' ', 'b'] 0 3) = cleanKey ['a', 'b'] := by
  have hr : alignRanges ['a', ' ', 'b'] [⟨0, ['a', 'b']⟩] 0 = [some (0, 3)] := by
    simp [alignRanges, matchRange, scanLoopSvc, cleanKey, pyIsSpace]
  refine (C2_matched_slice_reconstruction ['a', ' ', 'b'] [] [⟨0, ['a', 'b']⟩]).2
    ⟨0, ['a', 'b']⟩ (some (0, 3)) ?_ 0 3 rfl
  rw [hr]
  simp

/-- C3: across one aligner run over an ordered sentence list, the shared
cursor is monotonically nondecreasing: consecutive matched sentences
have `match_start` of the later one ≥ `match_end` of the earlier one
(so a duplicate phrase resolves to the next physical occurrence), and
the aligner's output is determined by exactly these ranges. -/
theorem C3_cursor_monotonicity (text : List Char) (cm : List CharBox)
    (ss : List Sentence) :
    List.Chain' (fun a b : Nat × Nat => a.2 ≤ b.1)
      ((alignRanges text ss 0).filterMap id) ∧
    map_sentences_to_bboxes ss text cm =
      (ss.zip (alignRanges text ss 0)).map (enrichWith cm) :=
  ⟨(alignRanges_spec text ss 0 (Nat.zero_le _)).2.2, svcAlign_eq_ranges text cm ss 0⟩

/-- C4: a sentence whose clean key cannot be fully consumed (the scan
runs off the end of the text), and likewise a whitespace-only sentence,
gets `bboxes = []` and leaves `current_idx` unchanged: the rest of the
run continues from exactly the same cursor.  The function is total, so
neither case raises an error. -/
theorem C4_failure_preserves_cursor (text : List Char) (cm : List CharBox)
    (s : Sentence) (rest : List Sentence) (idx : Nat) :
    (cleanKey s.text = [] →
      svcAlignLoop text cm (s :: rest) idx =
        ⟨s.id, s.text, []⟩ :: svcAlignLoop text cm rest idx) ∧
    (cleanKey s.text ≠ [] →
      (∀ m, (scanLoopSvc text (cleanKey s.text) idx none 0).2.1 = some m →
        ¬ (scanLoopSvc text (cleanKey s.text) idx none 0).2.2 =
          (cleanKey s.text).length) →
      svcAlignLoop text cm (s :: rest) idx =
        ⟨s.id, s.text, []⟩ :: svcAlignLoop text cm rest idx) := by
  constructor
  · intro hkey
    have hemp : (cleanKey s.text).isEmpty = true := by simp [hkey]
    simp only [svcAlignLoop, hemp, if_true]
  · intro hne hfail
    have hemp : (cleanKey s.text).isEmpty = false := by
      simpa [List.isEmpty_iff] using hne
    cases hms : (scanLoopSvc text (cleanKey s.text) idx none 0).2.1 with
    | none => simp only [svcAlignLoop, hemp, Bool.false_eq_true, if_false, hms]
    | some m =>
      have hnsp := hfail m hms
      simp only [svcAlignLoop, hemp, Bool.false_eq_true, if_false, hms, hnsp, if_false]

/-- Witness for C4: the whitespace-only sentence "merely spaces" yields
empty bboxes from cursor 1, and the unmatchable sentence "zq" on text
"ab" yields empty bboxes with the tail continuing from cursor 0. -/
theorem C4_witness :
    svcAlignLoop ['a', 'b'] [] [⟨7, [' ', '\t']⟩] 1 = [⟨7, [' ', '\t'], []⟩] ∧
    svcAlignLoop ['a', 'b'] [] [⟨8, ['z', 'q']⟩] 0 = [⟨8, ['z', 'q'], []⟩] := by
  constructor
  · rw [(C4_failure_preserves_cursor ['a', 'b'] [] ⟨7, [' ', '\t']⟩ [] 1).1
      (by simp [cleanKey, pyIsSpace])]
    rfl
  · have hcomp : scanLoopSvc ['a', 'b'] (cleanKey ['z', 'q']) 0 none 0 = (2, none, 0) := by
      simp [cleanKey, pyIsSpace, scanLoopSvc]
    rw [(C4_failure_preserves_cursor ['a', 'b'] [] ⟨8, ['z', 'q']⟩ [] 0).2
      (by simp [cleanKey, pyIsSpace]) ?_]
    · rfl
    · intro m hm
      rw [hcomp] at hm
      exact Option.noConfusion hm

section ScanMainSteps

variable {text key : List Char} {t sp : Nat} {ms : Option Nat}

lemma scanMain_step_ws (h : t < text.length ∧ sp < key.length)
    (hws : pyIsSpace (text.get ⟨t, h.1⟩) = true) :
    scanLoopMain text key t ms sp = scanLoopMain text key (t + 1) ms sp := by
  rw [scanLoopMain.eq_def, dif_pos h]
  rw [if_pos hws]

lemma scanMain_step_match_none (h : t < text.length ∧ sp < key.length)
    (hws : pyIsSpace (text.get ⟨t, h.1⟩) = false)
    (heq : text.get ⟨t, h.1⟩ = key.get ⟨sp, h.2⟩) :
    scanLoopMain text key t none sp = scanLoopMain text key (t + 1) (some t) (sp + 1) := by
  rw [scanLoopMain.eq_def, dif_pos h]
  rw [if_neg (by simpa using hws), if_pos heq]

lemma scanMain_step_match_some {m : Nat} (h : t < text.length ∧ sp < key.length)
    (hws : pyIsSpace (text.get ⟨t, h.1⟩) = false)
    (heq : text.get ⟨t, h.1⟩ = key.get ⟨sp, h.2⟩) :
    scanLoopMain text key t (some m) sp = scanLoopMain text key (t + 1) (some m) (sp + 1) := by
  rw [scanLoopMain.eq_def, dif_pos h]
  rw [if_neg (by simpa using hws), if_pos heq]

lemma scanMain_step_mismatch_some {m : Nat} (h : t < text.length ∧ sp < key.length)
    (hws : pyIsSpace (text.get ⟨t, h.1⟩) = false)
    (hne : ¬ text.get ⟨t, h.1⟩ = key.get ⟨sp, h.2⟩) :
    scanLoopMain text key t (some m) sp = scanLoopMain text key (m + 1) none 0 := by
  rw [scanLoopMain.eq_def, dif_pos h]
  rw [if_neg (by simpa using hws), if_neg hne]

lemma scanMain_step_mismatch_none (h : t < text.length ∧ sp < key.length)
    (hws : pyIsSpace (text.get ⟨t, h.1⟩) = false)
    (hne : ¬ text.get ⟨t, h.1⟩ = key.get ⟨sp, h.2⟩) :
    scanLoopMain text key t none sp = scanLoopMain text key (t + 1) none sp := by
  rw [scanLoopMain.eq_def, dif_pos h]
  rw [if_neg (by simpa using hws), if_neg hne]

lemma scanMain_exit (h : ¬ (t < text.length ∧ sp < key.length)) :
    scanLoopMain text key t ms sp = (t, ms, sp) := by
  rw [scanLoopMain.eq_def, dif_neg h]

end ScanMainSteps

lemma scanLoopMain_eq_svc (text key : List Char) :
    ∀ (t : Nat) (ms : Option Nat) (sp : Nat),
      scanLoopMain text key t ms sp = scanLoopSvc text key t ms sp := by
  intro t ms sp
  induction t, ms, sp using scanLoopMain.induct text key with
  | case1 t ms sp h c hws ih =>
    rw [scanMain_step_ws h hws, scanSvc_step_ws h hws]
    exact ih
  | case2 t sp h c hws heq ih =>
    rw [scanMain_step_match_none h (by simpa using hws) heq,
      scanSvc_step_match_none h (by simpa using hws) heq]
    exact ih
  | case3 t sp h c hws heq m0 ih =>
    rw [scanMain_step_match_some h (by simpa using hws) heq,
      scanSvc_step_match_some h (by simpa using hws) heq]
    exact ih
  | case4 t sp h c hws hne m0 ih =>
    rw [scanMain_step_mismatch_some h (by simpa using hws) hne,
      scanSvc_step_mismatch_some h (by simpa using hws) hne]
    exact ih
  | case5 t sp h c hws hne ih =>
    rw [scanMain_step_mismatch_none h (by simpa using hws) hne,
      scanSvc_step_mismatch_none h (by simpa using hws) hne]
    exact ih
  | case6 t ms sp h =>
    rw [scanMain_exit h, scanSvc_exit h]

lemma uploadAlignLoop_eq_svc (text : List Char) (cm : List CharBox) :
    ∀ (ss : List Sentence) (c : Nat),
      uploadAlignLoop text cm ss c = svcAlignLoop text cm ss c := by
  intro ss
  induction ss with
  | nil => intro c; rfl
  | cons s rest ih =>
    intro c
    by_cases hemp : (cleanKey s.text).isEmpty
    · simp only [uploadAlignLoop, svcAlignLoop, hemp, if_true]
      rw [ih c]
    · rw [Bool.not_eq_true] at hemp
      simp only [uploadAlignLoop, svcAlignLoop, hemp, Bool.false_eq_true, if_false,
        scanLoopMain_eq_svc text (cleanKey s.text) c none 0]
      cases hms : (scanLoopSvc text (cleanKey s.text) c none 0).2.1 with
      | none =>
        simp only [hms]
        rw [ih c]
      | some m0 =>
        simp only [hms]
        by_cases hsp : (scanLoopSvc text (cleanKey s.text) c none 0).2.2 =
            (cleanKey s.text).length
        · simp only [hsp, if_true]
          rw [ih (scanLoopSvc text (cleanKey s.text) c none 0).1]
        · simp only [hsp, if_false]
          rw [ih c]

/-- C10: the inline sentence-to-bbox alignment loop of `upload_pdf`
(`main.py`) and `PDFService._map_sentences_to_bboxes` (`pdf_service.py`)
are equivalent: on every `(sentences, full_text, char_map)` input they
produce the same enriched sentence list. -/
theorem C10_upload_service_equivalence (sentences : List Sentence)
    (text : List Char) (char_map : List CharBox) :
    upload_map_sentences sentences text char_map =
      map_sentences_to_bboxes sentences text char_map :=
  uploadAlignLoop_eq_svc text char_map sentences 0

end AskPDF
